import Mathlib

/-!
Verification of the slice-timing module `nipy/modalities/fmri/slice_time.py`.

The module is embedded shallowly:

* machine floats become elements of a linear ordered field `K` (instantiated
  with `ℚ` for executable witnesses and with `ℝ` where the sinc kernel needs
  `Real.sin` and `Real.pi`);
* one-dimensional numpy arrays of length `n` become functions `Fin n → K`;
* the fMRI data block with time axis 0 becomes `Fin T → idx → K`, where
  `idx = α × Fin S × β` spells out the spatial index space of one volume with
  the slice axis isolated as the middle component (axes before the slice axis
  collapse to `α`, axes after it to `β`);
* numpy `assert` failures become `Except Err` error values, with the error
  taxonomy of the specification (`GridSpacingError`, `GridMismatchError`,
  `RangeError`, `ShapeError`, `CoordinateMismatchError`) as the error type;
* in-place mutation (the detrend decorator) becomes explicit state passing.
-/

namespace SliceTime

/-- Error taxonomy of the specification.  The source raises `AssertionError`
with a message; each assert corresponds to one of these kinds. -/
inductive Err where
  | coordinateMismatch
  | gridSpacing
  | gridMismatch
  | rangeError
  | shapeError
  deriving DecidableEq, Repr

variable {K : Type*} [LinearOrderedField K]

/-- Default absolute tolerance of `np.allclose`. -/
def atol : K := 1 / 100000000

/-- Default relative tolerance of `np.allclose`. -/
def rtol : K := 1 / 100000

/-- `np.diff` on a vector of length `n`. -/
def diffV {n : ℕ} (t : Fin n → K) : Fin (n - 1) → K :=
  fun i => t ⟨i.val + 1, by omega⟩ - t ⟨i.val, by omega⟩

/-- `np.allclose(a, c)` comparing a vector with a scalar: every entry of `a`
is within `atol + rtol * |c|` of `c`. -/
def allcloseC {n : ℕ} (a : Fin n → K) (c : K) : Prop :=
  ∀ i, |a i - c| ≤ atol + rtol * |c|

instance {n : ℕ} (a : Fin n → K) (c : K) : Decidable (allcloseC a c) :=
  inferInstanceAs (Decidable (∀ _, _))

/-- A grid is uniformly spaced within the floating-point tolerance when some
constant spacing is `allclose` to all its consecutive differences. -/
def uniformWithinTol {n : ℕ} (t : Fin n → K) : Prop :=
  ∃ c, allcloseC (diffV t) c

/-- Minimum entry of a nonempty vector (`ndarray.min()`). -/
def vmin {m : ℕ} (t : Fin (m + 1) → K) : K :=
  Finset.univ.inf' Finset.univ_nonempty t

/-- Maximum entry of a nonempty vector (`ndarray.max()`). -/
def vmax {m : ℕ} (t : Fin (m + 1) → K) : K :=
  Finset.univ.sup' Finset.univ_nonempty t

/-! ## The phase ramp of `fast_sinc`

`fast_sinc` builds a complex phase ramp of length `L`:

    L = data.shape[0]
    Fnyq = L/2                      (Python 2 integer division)
    ramp_rate = 2./L
    phs_ramp = np.zeros((L,), complex)
    phs_ramp[:Fnyq+1] = np.exp(1j*np.pi*np.arange(Fnyq+1)*frac*ramp_rate)
    if not L%2:
        phs_ramp[Fnyq+1:] = phs_ramp[1:Fnyq][::-1].conjugate()
    else:
        phs_ramp[Fnyq+1:] = phs_ramp[1:Fnyq+1][::-1].conjugate()
-/

/-- `Fnyq = L/2`, integer division. -/
def Fnyq (L : ℕ) : ℕ := L / 2

/-- `ramp_rate = 2./L`. -/
noncomputable def ramp_rate (L : ℕ) : ℝ := 2 / L

/-- Entry `k` of the positive-frequency part of the ramp:
`exp(1j*np.pi*k*frac*ramp_rate)`. -/
noncomputable def ramp_pos (L : ℕ) (frac : ℝ) (k : ℕ) : ℂ :=
  Complex.exp (Complex.I * (Real.pi : ℂ) * (k : ℂ) * (frac : ℂ) * (ramp_rate L : ℂ))

/-- The complete phase ramp of `fast_sinc`, as a list of length `L`.
`pos` is `phs_ramp[:Fnyq+1]`; the even branch appends
`phs_ramp[1:Fnyq][::-1].conjugate()`, the odd branch appends
`phs_ramp[1:Fnyq+1][::-1].conjugate()`. -/
noncomputable def phs_ramp (L : ℕ) (frac : ℝ) : List ℂ :=
  let pos := (List.range (Fnyq L + 1)).map (ramp_pos L frac)
  let neg :=
    if L % 2 = 0 then
      (((pos.drop 1).take (Fnyq L - 1)).reverse).map (starRingEnd ℂ)
    else
      (((pos.drop 1).take (Fnyq L)).reverse).map (starRingEnd ℂ)
  pos ++ neg

/-- Total accessor for the ramp entries. -/
noncomputable def rampAt (L : ℕ) (frac : ℝ) (k : ℕ) : ℂ := (phs_ramp L frac).getD k 0

theorem phs_ramp_length (L : ℕ) (frac : ℝ) (hL : 1 ≤ L) :
    (phs_ramp L frac).length = L := by
  rcases Nat.even_or_odd L with he | ho
  · have hmod : L % 2 = 0 := Nat.even_iff.mp he
    simp only [phs_ramp, hmod, reduceIte, List.length_append, List.length_map,
      List.length_reverse, List.length_take, List.length_drop, List.length_range, Fnyq]
    omega
  · have hmod : L % 2 = 1 := Nat.odd_iff.mp ho
    simp only [phs_ramp, hmod]
    rw [if_neg Nat.one_ne_zero]
    simp only [List.length_append, List.length_map, List.length_reverse,
      List.length_take, List.length_drop, List.length_range, Fnyq]
    omega

/-- Entry `j` of the mirrored block `p[1:1+c][::-1].conjugate()`. -/
theorem mirror_getD (p : List ℂ) (c j : ℕ) (hc : c + 1 ≤ p.length) (hj : j < c) :
    ((((p.drop 1).take c).reverse).map (starRingEnd ℂ)).getD j 0 =
      (starRingEnd ℂ) (p.getD (c - j) 0) := by
  have hrl : ((p.drop 1).take c).length = c := by
    simp only [List.length_take, List.length_drop]; omega
  rw [List.getD_eq_getElem?_getD, List.getD_eq_getElem?_getD]
  rw [List.getElem?_map]
  rw [List.getElem?_reverse (by rw [hrl]; omega)]
  rw [hrl]
  rw [List.getElem?_take]
  rw [if_pos (by omega : c - 1 - j < c)]
  rw [List.getElem?_drop]
  have hix : 1 + (c - 1 - j) = c - j := by omega
  rw [hix]
  rw [List.getElem?_eq_getElem (by omega : c - j < p.length)]
  simp

/-- For `k ≤ Fnyq L` the ramp entry is the positive-frequency value. -/
theorem rampAt_of_le (L : ℕ) (frac : ℝ) (k : ℕ) (hk : k ≤ Fnyq L) :
    rampAt L frac k = ramp_pos L frac k := by
  rw [rampAt]
  simp only [phs_ramp]
  rw [List.getD_append _ _ _ _ (by simp only [List.length_map, List.length_range]; omega)]
  rw [List.getD_eq_getElem?_getD, List.getElem?_map,
    List.getElem?_range (by omega : k < Fnyq L + 1)]
  simp

/-- For `Fnyq L < k < L` the ramp entry is the conjugated mirror of the
positive-frequency value at `L - k` (this holds in both parity branches). -/
theorem rampAt_of_gt (L : ℕ) (frac : ℝ) (k : ℕ) (hk1 : Fnyq L < k) (hk2 : k < L) :
    rampAt L frac k = (starRingEnd ℂ) (ramp_pos L frac (L - k)) := by
  have hposlen : ((List.range (Fnyq L + 1)).map (ramp_pos L frac)).length = Fnyq L + 1 := by
    simp
  rw [rampAt]
  rcases Nat.even_or_odd L with he | ho
  · have hmod : L % 2 = 0 := Nat.even_iff.mp he
    have h2 : 2 * Fnyq L = L := by have := Nat.div_add_mod L 2; simp only [Fnyq]; omega
    simp only [phs_ramp, hmod, reduceIte]
    rw [List.getD_append_right _ _ _ _ (by rw [hposlen]; omega)]
    rw [hposlen]
    rw [mirror_getD _ (Fnyq L - 1) _ (by rw [hposlen]; omega) (by omega)]
    have hix : Fnyq L - 1 - (k - (Fnyq L + 1)) = L - k := by omega
    rw [hix]
    congr 1
    rw [List.getD_eq_getElem?_getD, List.getElem?_map,
      List.getElem?_range (by omega : L - k < Fnyq L + 1)]
    simp
  · have hmod : L % 2 = 1 := Nat.odd_iff.mp ho
    have h2 : 2 * Fnyq L + 1 = L := by have := Nat.div_add_mod L 2; simp only [Fnyq]; omega
    simp only [phs_ramp, hmod]
    rw [if_neg Nat.one_ne_zero]
    rw [List.getD_append_right _ _ _ _ (by rw [hposlen]; omega)]
    rw [hposlen]
    rw [mirror_getD _ (Fnyq L) _ (by rw [hposlen]) (by omega)]
    have hix : Fnyq L - (k - (Fnyq L + 1)) = L - k := by omega
    rw [hix]
    congr 1
    rw [List.getD_eq_getElem?_getD, List.getElem?_map,
      List.getElem?_range (by omega : L - k < Fnyq L + 1)]
    simp

theorem rampAt_zero (L : ℕ) (frac : ℝ) : rampAt L frac 0 = 1 := by
  rw [rampAt_of_le L frac 0 (Nat.zero_le _), ramp_pos]
  norm_num [Complex.exp_zero]

/-- The Hermitian mirror identity for the ramp, away from the even-length
Nyquist bin. -/
theorem rampAt_mirror (L : ℕ) (frac : ℝ) (k : ℕ) (hk1 : 1 ≤ k) (hkL : k < L)
    (hside : L % 2 = 1 ∨ k ≠ L / 2) :
    rampAt L frac (L - k) = (starRingEnd ℂ) (rampAt L frac k) := by
  have hdivmod := Nat.div_add_mod L 2
  rcases le_or_lt k (Fnyq L) with hle | hgt
  · have hgt2 : Fnyq L < L - k := by
      rcases hside with hodd | hne
      · simp only [Fnyq] at hle ⊢
        omega
      · have hh : k ≠ Fnyq L ∨ L % 2 = 1 := by
          rcases Nat.even_or_odd L with he | ho
          · exact Or.inl (by simpa [Fnyq] using hne)
          · exact Or.inr (Nat.odd_iff.mp ho)
        simp only [Fnyq] at hle hh ⊢
        omega
    rw [rampAt_of_gt L frac (L - k) hgt2 (by omega), rampAt_of_le L frac k hle]
    congr 1
    have hkk : L - (L - k) = k := by omega
    rw [hkk]
  · have hle2 : L - k ≤ Fnyq L := by
      simp only [Fnyq] at hgt ⊢
      omega
    rw [rampAt_of_le L frac (L - k) hle2, rampAt_of_gt L frac k hgt hkL]
    rw [RingHomInvPair.comp_apply_eq]

/-- `np.fft.fft` along the time axis, one output bin: numpy's convention
`X[k] = sum_j x[j] * exp(-2πi·k·j/L)`. -/
noncomputable def dftc {L : ℕ} (x : Fin L → ℂ) (k : ℕ) : ℂ :=
  ∑ j : Fin L, x j *
    Complex.exp (-(2 * (Real.pi : ℂ) * Complex.I * (k : ℂ) * (j.val : ℂ)) / (L : ℂ))

/-- `np.fft.ifft`, one output sample:
`x[n] = (1/L) * sum_k X[k] * exp(2πi·k·n/L)`. -/
noncomputable def idftc (L : ℕ) (X : ℕ → ℂ) (n : ℕ) : ℂ :=
  (∑ k : Fin L, X k.val *
    Complex.exp ((2 * (Real.pi : ℂ) * Complex.I * (k.val : ℂ) * (n : ℂ)) / (L : ℂ))) / (L : ℂ)

/-- `fast_sinc(frac, data)`: forward FFT along the time axis, multiply by
the phase ramp, inverse FFT, take the real part.  (The per-column action;
numpy broadcasts it over the trailing axes.) -/
noncomputable def fast_sinc {L : ℕ} {idx : Type*} (frac : ℝ) (data : Fin L → idx → ℝ) :
    Fin L → idx → ℝ :=
  fun n v => (idftc L
    (fun k => dftc (fun j => ((data j v : ℝ) : ℂ)) k * rampAt L frac k) n.val).re

/-- A full turn of the complex exponential at an integer multiple is 1. -/
theorem exp_nat_two_pi (b : ℕ) :
    Complex.exp ((b : ℂ) * (2 * (Real.pi : ℂ) * Complex.I)) = 1 := by
  have h := Complex.exp_int_mul_two_pi_mul_I (b : ℤ)
  push_cast at h
  exact h

/-- Mirroring the frequency index over the length flips the sign of the
exponent (mod a full turn). -/
theorem exp_sub_arg (L a b : ℕ) (ha : a ≤ L) (hL : 1 ≤ L) :
    Complex.exp ((2 * (Real.pi : ℂ) * Complex.I * ((L - a : ℕ) : ℂ) * (b : ℂ)) / (L : ℂ)) =
      Complex.exp (-(2 * (Real.pi : ℂ) * Complex.I * (a : ℂ) * (b : ℂ)) / (L : ℂ)) := by
  have hL0 : (L : ℂ) ≠ 0 := Nat.cast_ne_zero.mpr (by omega)
  have hcast : ((L - a : ℕ) : ℂ) = (L : ℂ) - (a : ℂ) := Nat.cast_sub ha
  have harg : (2 * (Real.pi : ℂ) * Complex.I * ((L : ℂ) - (a : ℂ)) * (b : ℂ)) / (L : ℂ) =
      -(2 * (Real.pi : ℂ) * Complex.I * (a : ℂ) * (b : ℂ)) / (L : ℂ) +
        (b : ℂ) * (2 * (Real.pi : ℂ) * Complex.I) := by
    field_simp
    ring
  rw [hcast, harg, Complex.exp_add, exp_nat_two_pi, mul_one]

/-- The negated form of `exp_sub_arg`. -/
theorem exp_sub_arg_neg (L a b : ℕ) (ha : a ≤ L) (hL : 1 ≤ L) :
    Complex.exp (-(2 * (Real.pi : ℂ) * Complex.I * ((L - a : ℕ) : ℂ) * (b : ℂ)) / (L : ℂ)) =
      Complex.exp ((2 * (Real.pi : ℂ) * Complex.I * (a : ℂ) * (b : ℂ)) / (L : ℂ)) := by
  have h := exp_sub_arg L a b ha hL
  calc Complex.exp (-(2 * (Real.pi : ℂ) * Complex.I * ((L - a : ℕ) : ℂ) * (b : ℂ)) / (L : ℂ))
      = (Complex.exp ((2 * (Real.pi : ℂ) * Complex.I * ((L - a : ℕ) : ℂ) * (b : ℂ)) /
          (L : ℂ)))⁻¹ := by
        rw [← Complex.exp_neg]
        congr 1
        ring
    _ = (Complex.exp (-(2 * (Real.pi : ℂ) * Complex.I * (a : ℂ) * (b : ℂ)) / (L : ℂ)))⁻¹ := by
        rw [h]
    _ = Complex.exp ((2 * (Real.pi : ℂ) * Complex.I * (a : ℂ) * (b : ℂ)) / (L : ℂ)) := by
        rw [← Complex.exp_neg]
        congr 1
        ring

/-- Conjugating the forward-transform exponential flips its sign. -/
theorem conj_exp_fourier (a b L : ℕ) :
    (starRingEnd ℂ) (Complex.exp
        (-(2 * (Real.pi : ℂ) * Complex.I * (a : ℂ) * (b : ℂ)) / (L : ℂ))) =
      Complex.exp ((2 * (Real.pi : ℂ) * Complex.I * (a : ℂ) * (b : ℂ)) / (L : ℂ)) := by
  rw [← Complex.exp_conj]
  congr 1
  rw [map_div₀, map_neg, map_mul, map_mul, map_mul, Complex.conj_I]
  simp [Complex.conj_ofReal, map_ofNat]

/-- The conjugate of the inverse-transform exponential. -/
theorem conj_exp_fourier_inv (a b L : ℕ) :
    (starRingEnd ℂ) (Complex.exp
        ((2 * (Real.pi : ℂ) * Complex.I * (a : ℂ) * (b : ℂ)) / (L : ℂ))) =
      Complex.exp (-(2 * (Real.pi : ℂ) * Complex.I * (a : ℂ) * (b : ℂ)) / (L : ℂ)) := by
  have h := congrArg (starRingEnd ℂ) (conj_exp_fourier a b L)
  rw [RingHomInvPair.comp_apply_eq] at h
  exact h.symm

/-- The DFT of a real-valued sequence is conjugate-symmetric:
`conj X[k] = X[L-k]`. -/
theorem dftc_conj_real {L : ℕ} (x : Fin L → ℝ) (k : ℕ) (hk : k ≤ L) (hL : 1 ≤ L) :
    (starRingEnd ℂ) (dftc (fun j => ((x j : ℝ) : ℂ)) k) =
      dftc (fun j => ((x j : ℝ) : ℂ)) (L - k) := by
  rw [dftc, map_sum, dftc]
  apply Finset.sum_congr rfl
  intro j _
  rw [map_mul, Complex.conj_ofReal, conj_exp_fourier]
  congr 1
  rw [exp_sub_arg_neg L k j.val hk hL]

/-- The mirroring map on frequency indices: `0 ↦ 0`, `k ↦ L - k`. -/
def mirrorFn (L : ℕ) (k : Fin L) : Fin L :=
  if h : k.val = 0 then k else ⟨L - k.val, by omega⟩

theorem mirrorFn_involutive (L : ℕ) : Function.Involutive (mirrorFn L) := by
  intro k
  by_cases h : k.val = 0
  · have hk : mirrorFn L k = k := by rw [mirrorFn, dif_pos h]
    rw [hk, hk]
  · have hlt := k.isLt
    have hk : mirrorFn L k = ⟨L - k.val, by omega⟩ := by rw [mirrorFn, dif_neg h]
    rw [hk, mirrorFn, dif_neg (show ¬ (L - k.val = 0) by omega)]
    exact Fin.ext (show L - (L - k.val) = k.val by omega)

/-- A sum whose terms pair up conjugate-symmetrically under the mirror map
equals its own conjugate. -/
theorem sum_conj_eq_of_mirror {L : ℕ} (g : Fin L → ℂ)
    (hpoint : ∀ k, (starRingEnd ℂ) (g k) = g (mirrorFn L k)) :
    ∑ k, (starRingEnd ℂ) (g k) = ∑ k, g k := by
  calc ∑ k, (starRingEnd ℂ) (g k) = ∑ k, g (mirrorFn L k) :=
        Finset.sum_congr rfl (fun k _ => hpoint k)
    _ = ∑ k, g k := by
        have h := Equiv.sum_comp
          (Function.Involutive.toPerm (mirrorFn L) (mirrorFn_involutive L)) g
        simpa [Function.Involutive.coe_toPerm] using h

/-- For odd `L`, the inverse transform of the ramp-multiplied spectrum of a
real-valued sequence is exactly real: the spectrum `X[k]·ramp[k]` is
conjugate-symmetric, so paired terms cancel imaginary parts. -/
theorem idftc_ramp_real_of_odd (L : ℕ) (frac : ℝ) (hodd : L % 2 = 1)
    (x : Fin L → ℝ) (n : ℕ) :
    (idftc L (fun k => dftc (fun j => ((x j : ℝ) : ℂ)) k * rampAt L frac k) n).im = 0 := by
  have hL1 : 1 ≤ L := by omega
  rw [← Complex.conj_eq_iff_im]
  rw [idftc, map_div₀, map_natCast, map_sum]
  congr 1
  have hc0 : (starRingEnd ℂ) (dftc (fun j => ((x j : ℝ) : ℂ)) 0) =
      dftc (fun j => ((x j : ℝ) : ℂ)) 0 := by
    rw [dftc, map_sum]
    apply Finset.sum_congr rfl
    intro j _
    rw [map_mul, Complex.conj_ofReal]
    congr 1
    rw [Nat.cast_zero]
    norm_num [Complex.exp_zero]
  apply sum_conj_eq_of_mirror
  intro k
  rw [mirrorFn]
  by_cases hk0 : k.val = 0
  · rw [dif_pos hk0, hk0]
    simp only [Nat.cast_zero, mul_zero, zero_mul, zero_div, Complex.exp_zero, mul_one]
    rw [map_mul, rampAt_zero, map_one, mul_one, mul_one]
    exact hc0
  · rw [dif_neg hk0]
    have hk1 : 1 ≤ k.val := by omega
    have hkL : k.val < L := k.isLt
    show (starRingEnd ℂ) (dftc (fun j => ((x j : ℝ) : ℂ)) k.val * rampAt L frac k.val *
        Complex.exp ((2 * (Real.pi : ℂ) * Complex.I * (k.val : ℂ) * (n : ℂ)) / (L : ℂ))) =
      dftc (fun j => ((x j : ℝ) : ℂ)) (L - k.val) * rampAt L frac (L - k.val) *
        Complex.exp ((2 * (Real.pi : ℂ) * Complex.I * ((L - k.val : ℕ) : ℂ) * (n : ℂ)) /
          (L : ℂ))
    rw [map_mul, map_mul]
    rw [dftc_conj_real x k.val (le_of_lt hkL) hL1]
    rw [← rampAt_mirror L frac k.val hk1 hkL (Or.inl hodd)]
    rw [conj_exp_fourier_inv]
    rw [exp_sub_arg L k.val n (le_of_lt hkL) hL1]

/-- C2 (amended): for every length `L ≥ 2` and every real fraction, the ramp
of `fast_sinc` satisfies `ramp[0] = 1` and the Hermitian mirror identity
`ramp[L-k] = conj ramp[k]` for every `k` in `1..L-1` except, when `L` is
even, the Nyquist index `k = L/2`, where the entry equals `exp(iπ·frac)` — a
value that is real only for integer fractions.  Hence the ramp is fully
Hermitian-symmetric for odd `L` — and then the inverse transform of a
real-valued input multiplied by the ramp is exactly real-valued — but for
even `L` this holds only away from the Nyquist bin. -/
theorem phs_ramp_symmetry (L : ℕ) (frac : ℝ) (hL : 2 ≤ L) :
    rampAt L frac 0 = 1 ∧
    (∀ k, 1 ≤ k → k < L → L % 2 = 1 ∨ k ≠ L / 2 →
      rampAt L frac (L - k) = (starRingEnd ℂ) (rampAt L frac k)) ∧
    (L % 2 = 0 → rampAt L frac (L / 2) =
      Complex.exp (Complex.I * (Real.pi : ℂ) * (frac : ℂ))) ∧
    (L % 2 = 1 → ∀ (x : Fin L → ℝ) (n : ℕ),
      (idftc L (fun k => dftc (fun j => ((x j : ℝ) : ℂ)) k * rampAt L frac k) n).im = 0) := by
  refine ⟨rampAt_zero L frac, ?_, ?_, ?_⟩
  · intro k hk1 hkL hside
    exact rampAt_mirror L frac k hk1 hkL hside
  · intro hmod
    have hF : L / 2 ≤ Fnyq L := le_rfl
    rw [rampAt_of_le L frac (L / 2) hF, ramp_pos, ramp_rate]
    congr 1
    obtain ⟨m, hm⟩ : ∃ m, L = 2 * m := ⟨L / 2, by omega⟩
    have hm0 : (m : ℂ) ≠ 0 := by
      have : m ≠ 0 := by omega
      exact_mod_cast Nat.cast_ne_zero.mpr this
    subst hm
    have hhalf : (2 * m) / 2 = m := by omega
    rw [hhalf]
    push_cast
    field_simp
    ring
  · intro hodd x n
    exact idftc_ramp_real_of_odd L frac hodd x n

/-- C2 counterexample: at `L = 2`, `frac = 1/2` the ramp is not
Hermitian-symmetric — the (Nyquist) entry at index 1 is `i`, which is not
equal to its own conjugate, so the claimed mirror identity
`ramp[L-k] = conj ramp[k]` fails at `k = 1` (and the Nyquist entry is not
real). -/
theorem phs_ramp_not_hermitian :
    ¬ (∀ k, 1 ≤ k → k < 2 →
        rampAt 2 (1 / 2) (2 - k) = (starRingEnd ℂ) (rampAt 2 (1 / 2) k)) := by
  intro h
  have h1 := h 1 le_rfl one_lt_two
  norm_num at h1
  have hI : rampAt 2 (1 / 2) 1 = Complex.I := by
    rw [rampAt_of_le 2 (1 / 2) 1 (by norm_num [Fnyq]), ramp_pos]
    have harg : Complex.I * (Real.pi : ℂ) * ((1 : ℕ) : ℂ) * ((1 / 2 : ℝ) : ℂ) *
        ((ramp_rate 2 : ℝ) : ℂ) = ((Real.pi / 2 : ℝ) : ℂ) * Complex.I := by
      rw [ramp_rate]
      push_cast
      ring
    rw [harg, Complex.exp_mul_I, ← Complex.ofReal_cos, ← Complex.ofReal_sin,
      Real.cos_pi_div_two, Real.sin_pi_div_two]
    simp
  rw [hI, Complex.conj_I] at h1
  have := Complex.I_ne_zero
  apply this
  linear_combination h1 / 2

/-- Witness for the amended C2 theorem at `L = 3`, `frac = 1/2`. -/
theorem phs_ramp_symmetry_witness :
    2 ≤ 3 ∧
    (rampAt 3 (1 / 2) 0 = 1 ∧
      (∀ k, 1 ≤ k → k < 3 → 3 % 2 = 1 ∨ k ≠ 3 / 2 →
        rampAt 3 (1 / 2) (3 - k) = (starRingEnd ℂ) (rampAt 3 (1 / 2) k)) ∧
      (3 % 2 = 0 → rampAt 3 (1 / 2) (3 / 2) =
        Complex.exp (Complex.I * (Real.pi : ℂ) * ((1 / 2 : ℝ) : ℂ))) ∧
      (3 % 2 = 1 → ∀ (x : Fin 3 → ℝ) (n : ℕ),
        (idftc 3 (fun k => dftc (fun j => ((x j : ℝ) : ℂ)) k * rampAt 3 (1 / 2) k) n).im =
          0)) :=
  ⟨by norm_num, phs_ramp_symmetry 3 (1 / 2) (by norm_num)⟩

/-! ## The interpolator contract

A Python interpolator `interpolator(input_times, Y)(output_times)` becomes a
function from the time grid and the sample vector to an evaluator; numpy
`assert` failures on either stage become `Except Err` errors. -/

/-- An interpolating function, evaluable at any vector of output times. -/
def Evaluator (K : Type*) : Type _ :=
  (p : ℕ) → (Fin p → K) → Except Err (Fin p → K)

/-- The interpolator contract: observed times and sample values in, an
evaluator out.  Length-polymorphic, as Python callables are. -/
def Interp (K : Type*) : Type _ :=
  (n : ℕ) → (Fin n → K) → (Fin n → K) → Except Err (Evaluator K)

/-- Column `i` of `np.identity(nin)`: the canonical basis vector. -/
def basisVec {n : ℕ} (i : Fin n) : Fin n → K :=
  fun m => if m = i then 1 else 0

/-- Collect componentwise `Except` results into one function, failing if any
component fails (the loop `for i in range(nin)` of `make_filter`). -/
def finCollect {β : Type*} : {n : ℕ} → (Fin n → Except Err β) → Except Err (Fin n → β)
  | 0, _ => .ok (fun i => i.elim0)
  | _ + 1, f => do
    let x ← f 0
    let rest ← finCollect (fun i => f i.succ)
    .ok (Fin.cons x rest)

theorem finCollect_ok {β : Type*} :
    ∀ {n : ℕ} (f : Fin n → Except Err β) (g : Fin n → β),
      (∀ i, f i = .ok (g i)) → finCollect f = .ok g := by
  intro n
  induction n with
  | zero =>
    intro f g h
    simp only [finCollect]
    congr
    funext i
    exact i.elim0
  | succ n ih =>
    intro f g h
    simp only [finCollect, h 0, ih (fun i => f i.succ) (fun i => g i.succ) (fun i => h i.succ)]
    exact congrArg Except.ok (Fin.cons_self_tail g)

/-- `make_filter(interpolator, input_times, output_times)`: probe the
interpolator with each canonical basis vector and collect the responses as
the columns of an `nout × nin` matrix (`A[:,i] = interpolator(input_times,
I[:,i])(output_times)`). -/
def make_filter {nin nout : ℕ} (interpolator : Interp K)
    (input_times : Fin nin → K) (output_times : Fin nout → K) :
    Except Err (Matrix (Fin nout) (Fin nin) K) := do
  let cols ← finCollect (fun i => do
    let ev ← interpolator nin input_times (basisVec i)
    ev nout output_times)
  .ok (Matrix.of fun n i => cols i n)

/-- Pure application of the filter matrix along the time axis, broadcasting
over the remaining index space `idx` (`np.dot(A, x.reshape(...))` followed
by the reshape back). -/
def applyMat {nout nin : ℕ} {idx : Type*} (A : Matrix (Fin nout) (Fin nin) K)
    (x : Fin nin → idx → K) : Fin nout → idx → K :=
  fun n v => ∑ m, A n m * x m v

/-- The function `f` returned by `make_filter`: `np.dot` raises a shape
error when the data's leading axis does not match the filter's input
length. -/
def apply_filter {nout nin T : ℕ} {idx : Type*} (A : Matrix (Fin nout) (Fin nin) K)
    (x : Fin T → idx → K) : Except Err (Fin nout → idx → K) :=
  if h : nin = T then .ok (applyMat A (fun m v => x (Fin.cast h m) v))
  else .error .shapeError

/-! ## The default linear interpolator

Modelled from scipy: `scipy.interpolate.interp1d(x, y)` with the default
`kind='linear'` and `bounds_error=True` — the default interpolator of
`slice_time`.  It is an external collaborator of the repository (imported at
the top of `slice_time.py`); its piecewise-linear evaluation rule is
embedded here: `searchsorted` insertion index, clipped to `[1, n-1]`, then
linear interpolation between the two bracketing samples, with a bounds error
outside `[x[0], x[-1]]`. -/

/-- `np.searchsorted(t, v)` (side='left') for sorted `t`: the number of
entries strictly below `v`. -/
def searchsortedLeft {n : ℕ} (t : Fin n → K) (v : K) : ℕ :=
  (Finset.univ.filter (fun i => t i < v)).card

/-- The upper bracketing index: the insertion index clipped to `[1, n-1]`. -/
def hiIdx (m : ℕ) (s : ℕ) : Fin (m + 2) :=
  ⟨max 1 (min s (m + 1)), by omega⟩

/-- The lower bracketing index, one below `hiIdx`. -/
def loIdx (m : ℕ) (s : ℕ) : Fin (m + 2) :=
  ⟨max 1 (min s (m + 1)) - 1, by omega⟩

/-- Piecewise-linear interpolation of `(t, y)` at the point `v`, between the
bracketing nodes `lo = loIdx` and `hi = hiIdx`. -/
def interp1dVal {m : ℕ} (t : Fin (m + 2) → K) (y : Fin (m + 2) → K) (v : K) : K :=
  y (loIdx m (searchsortedLeft t v)) +
    (y (hiIdx m (searchsortedLeft t v)) - y (loIdx m (searchsortedLeft t v))) *
      (v - t (loIdx m (searchsortedLeft t v))) /
      (t (hiIdx m (searchsortedLeft t v)) - t (loIdx m (searchsortedLeft t v)))

/-- `scipy.interpolate.interp1d` as an `Interp`: fewer than two samples is a
build error; evaluation outside `[t[0], t[-1]]` is a bounds error. -/
def interp1d : Interp K := fun n =>
  match n with
  | m + 2 => fun t y =>
    .ok (fun p tnew =>
      if ∀ k, t 0 ≤ tnew k ∧ tnew k ≤ t ⟨m + 1, by omega⟩ then
        .ok (fun k => interp1dVal t y (tnew k))
      else .error .rangeError)
  | _ => fun _ _ => .error .shapeError

theorem searchsortedLeft_strictMono {m : ℕ} (t : Fin (m + 2) → K)
    (ht : StrictMono t) (j : Fin (m + 2)) : searchsortedLeft t (t j) = j.val := by
  rw [searchsortedLeft]
  have hset : Finset.univ.filter (fun i => t i < t j) = Finset.Iio j := by
    ext i
    simp [ht.lt_iff_lt]
  rw [hset, Fin.card_Iio]

/-- Evaluating the linear interpolator exactly at an observation node
returns the observed value (no tolerance needed, for any strictly
increasing grid). -/
theorem interp1dVal_node {m : ℕ} (t : Fin (m + 2) → K) (y : Fin (m + 2) → K)
    (ht : StrictMono t) (j : Fin (m + 2)) : interp1dVal t y (t j) = y j := by
  have hlt := j.isLt
  rw [interp1dVal, searchsortedLeft_strictMono t ht j]
  rcases Nat.eq_zero_or_pos j.val with hj | hj
  · -- j = 0: clipped to the first interval, the linear term vanishes
    have hj0 : j = 0 := Fin.ext (by simpa using hj)
    have hhi : hiIdx m j.val = 1 := Fin.ext (by simp [hiIdx, hj, Fin.val_one])
    have hlo : loIdx m j.val = 0 := Fin.ext (by simp [loIdx, hj])
    rw [hhi, hlo, hj0, sub_self]
    simp
  · -- j ≥ 1: the bracket is [j-1, j] and the quotient cancels
    have hhi : hiIdx m j.val = j := Fin.ext (by simp [hiIdx]; omega)
    have hlo : (loIdx m j.val).val = j.val - 1 := by simp [loIdx]; omega
    have hltj : loIdx m j.val < j := by rw [Fin.lt_def, hlo]; omega
    have hne : t j - t (loIdx m j.val) ≠ 0 := ne_of_gt (sub_pos.mpr (ht hltj))
    rw [hhi, mul_div_assoc, div_self hne]
    ring

/-! ## The windowed sinc interpolator

`sinc_interp(t, x, window=None)` requires equally spaced `t` (an assert,
mapped to `GridSpacingError` per the specification's taxonomy) and returns
an evaluator that rejects output points more than one sample spacing outside
the observed range (`RangeError`), otherwise returning the weighted sinc
sum `np.dot(d, x)` with `d = sinc(dmt)` optionally multiplied by
`window(dmt)`.  The kernel `sinc` is imported from scipy in the source, so
it is a parameter here; `realSinc` below instantiates it. -/

/-- One kernel weight: `sinc(dmt)`, times `window(dmt)` when a window is
supplied (`d *= window(dmt)`). -/
def kernelWeight (sinck : K → K) (window : Option (K → K)) (d : K) : K :=
  match window with
  | none => sinck d
  | some w => sinck d * w d

/-- The evaluator closure `f(tnew)` of `sinc_interp`, with `tr = t[1]-t[0]`
captured from the build. -/
def sinc_evalF {m : ℕ} {idx : Type*} (sinck : K → K) (window : Option (K → K))
    (t : Fin (m + 2) → K) (x : Fin (m + 2) → idx → K) (p : ℕ) (tnew : Fin p → K) :
    Except Err (Fin p → idx → K) :=
  if ∀ k : Fin p, vmin t - (t 1 - t 0) ≤ tnew k ∧ tnew k ≤ vmax t + (t 1 - t 0) then
    .ok (fun k v => ∑ mm : Fin (m + 2), kernelWeight sinck window
      ((tnew k - t 0) / (t 1 - t 0) - (mm.val : K)) * x mm v)
  else .error .rangeError

/-- `sinc_interp(t, x, window)`: build-time uniform-spacing check, then the
evaluator closure.  (`x` is copied by the source; values are passed here, so
the copy is implicit.) -/
def sinc_interp {m : ℕ} {idx : Type*} (sinck : K → K) (window : Option (K → K))
    (t : Fin (m + 2) → K) (x : Fin (m + 2) → idx → K) :
    Except Err ((p : ℕ) → (Fin p → K) → Except Err (Fin p → idx → K)) :=
  if allcloseC (diffV t) (t 1 - t 0) then .ok (sinc_evalF sinck window t x)
  else .error .gridSpacing

/-- `sinc_interp` seen through the 1-D interpolator contract, as used when
it is passed to `make_filter` (sample vectors instead of data blocks). -/
def sinc_interpContract (sinck : K → K) (window : Option (K → K)) : Interp K := fun n =>
  match n with
  | _ + 2 => fun t y =>
    (sinc_interp sinck window t (fun mm (_ : Unit) => y mm)).map
      (fun f p tnew => (f p tnew).map (fun g k => g k ()))
  | _ => fun _ _ => .error .shapeError

/-- The normalized sinc kernel of `scipy.special.sinc`:
`sin(πx)/(πx)` with value 1 at 0. -/
noncomputable def realSinc (x : ℝ) : ℝ :=
  if x = 0 then 1 else Real.sin (Real.pi * x) / (Real.pi * x)

/-! ## The detrend decorator

`detrend(interpolator)` fits a first-order polynomial per column
(`np.polyfit(input_times, data, 1)`), subtracts the trend in place, builds
the wrapped interpolator on the residual, adds the trend back in place, and
returns an evaluator that re-adds the trend at the requested output times.
In-place mutation of the caller's `data` array is modelled by returning the
final state of that array alongside the evaluator. -/

/-- An interpolator over data blocks with arbitrary trailing index space
(the shape `detrend` wraps). -/
def NdInterp (K : Type*) (idx : Type*) : Type _ :=
  (n : ℕ) → (Fin n → K) → (Fin n → idx → K) →
    Except Err ((p : ℕ) → (Fin p → K) → Except Err (Fin p → idx → K))

/-- `np.polyfit(t, y, 1)` per trailing column: the least-squares slope and
intercept `(a1, a0)`. -/
def polyfit1 {n : ℕ} {idx : Type*} (t : Fin n → K) (y : Fin n → idx → K) :
    (idx → K) × (idx → K) :=
  (fun v => ((n : K) * (∑ i, t i * y i v) - (∑ i, t i) * (∑ i, y i v)) /
      ((n : K) * (∑ i, t i * t i) - (∑ i, t i) * (∑ i, t i)),
   fun v => ((∑ i, y i v) -
      (((n : K) * (∑ i, t i * y i v) - (∑ i, t i) * (∑ i, y i v)) /
        ((n : K) * (∑ i, t i * t i) - (∑ i, t i) * (∑ i, t i))) * (∑ i, t i)) / (n : K))

/-- The detrend decorator.  The second component of the result is the state
of the caller's `data` array after the build.  When the wrapped build
returns, `data -= trends` was followed by `data += trends`; when it raises,
the exception propagates before `data += trends` runs and the caller's
array is left in the detrended state `data1`. -/
def detrend {idx : Type*} (interpolator : NdInterp K idx) :
    (n : ℕ) → (Fin n → K) → (Fin n → idx → K) →
      (Except Err ((p : ℕ) → (Fin p → K) → Except Err (Fin p → idx → K))) ×
        (Fin n → idx → K) :=
  fun n input_times data =>
    let a1 := (polyfit1 input_times data).1
    let a0 := (polyfit1 input_times data).2
    let trends := fun mm v => input_times mm * a1 v + a0 v
    let data1 := fun mm v => data mm v - trends mm v
    match interpolator n input_times data1 with
    | .error e => (.error e, data1)
    | .ok ev =>
      let data2 := fun mm v => data1 mm v + trends mm v
      (.ok (fun p tnew =>
        (ev p tnew).map (fun y k v => y k v + (tnew k * a1 v + a0 v))),
        data2)

/-! ## Slice generator, axis interpolator and the top-level corrector

The spatial index space of one volume is `α × Fin S × β` — axes before the
slice axis collapse into `α`, the slice axis itself is `Fin S`, and axes
after it collapse into `β`.  The index tuple
`ij = (slice(None),)*axis + (slice(j,j+1),)` of the generator then denotes
the set of positions whose slice-axis coordinate is `j` with every other
axis taken in full; `selMem` is that denotation. -/

/-- A slice descriptor, one element of the triple
`(input_values, input_indices, output_indices)` yielded by the generator.
`nin` is the length of the input time grid (arbitrary for a hand-written
generator; equal to the number of volumes for `slice_generator`); the two
selectors are slice-axis indices. -/
structure Desc (K : Type*) (S : ℕ) where
  nin : ℕ
  times : Fin nin → K
  inSel : Fin S
  outSel : Fin S

/-- Denotation of the index tuple `(slice(None),)*axis + (slice(j,j+1),)`:
a position is selected iff its slice-axis coordinate is `j`; the other axes
are unconstrained (full range). -/
def selMem {S : ℕ} {α β : Type*} (j : Fin S) (p : α × Fin S × β) : Prop :=
  p.2.1 = j

instance {S : ℕ} {α β : Type*} (j : Fin S) (p : α × Fin S × β) :
    Decidable (selMem j p) :=
  inferInstanceAs (Decidable (_ = _))

/-- `slice_generator(image_list, slicetimes, axis)`: one descriptor per
index `j` along the slice axis, with input time grid
`volume_start_times + slicetimes[j]` and both selectors picking slice `j`. -/
def slice_generator {T S : ℕ} (volume_start_times : Fin T → K)
    (slicetimes : Fin S → K) : List (Desc K S) :=
  (List.finRange S).map (fun j => ⟨T, fun n => volume_start_times n + slicetimes j, j, j⟩)

/-- The interpolator argument of `axis_interpolator`.  The source dispatches
on identity (`if interpolator is not fast_sinc`); that flag becomes a
variant: either a contract interpolator, or the fast Fourier fractional
-delay resampler given by its per-column action on the time axis. -/
inductive InterpArg (K : Type*) (T : ℕ) where
  | general (interpolator : Interp K)
  | fastSinc (fsf : K → (Fin T → K) → Fin T → K)

/-- `output_data[:,output_indices] = vals`: overwrite the selected slice of
the buffer, leaving other positions untouched. -/
def writeSlice {T S : ℕ} {α β : Type*} (buf : Fin T → α × Fin S × β → K)
    (j : Fin S) (vals : Fin T → α × Fin S × β → K) : Fin T → α × Fin S × β → K :=
  fun n p => if selMem j p then vals n p else buf n p

/-- One iteration of the `axis_interpolator` loop over the generator.
The general path builds and applies the linear filter; the `fast_sinc` path
first checks that output and input grids are equally spaced with the shared
spacing `tr = output_values[1]-output_values[0]` and have equal length
(each failing assert is a `GridMismatchError`), and only then applies the
resampler with `frac = (output_values[0]-input_values[0])/tr`. -/
def stepDesc {nt S : ℕ} {α β : Type*} (data : Fin (nt + 2) → α × Fin S × β → K)
    (output_values : Fin (nt + 2) → K) (ia : InterpArg K (nt + 2))
    (buf : Fin (nt + 2) → α × Fin S × β → K) (d : Desc K S) :
    Except Err (Fin (nt + 2) → α × Fin S × β → K) :=
  match ia with
  | .general interpolator =>
    (make_filter interpolator d.times output_values).bind (fun A =>
      (apply_filter A data).bind (fun y =>
        .ok (writeSlice buf d.outSel (fun n p => y n (p.1, d.inSel, p.2.2)))))
  | .fastSinc fsf =>
    if allcloseC (diffV output_values) (output_values 1 - output_values 0) then
      if allcloseC (diffV d.times) (output_values 1 - output_values 0) then
        if h : d.nin = nt + 2 then
          .ok (writeSlice buf d.outSel (fun n p =>
            fsf ((output_values 0 - d.times (Fin.cast h.symm 0)) /
                (output_values 1 - output_values 0))
              (fun mm => data mm (p.1, d.inSel, p.2.2)) n))
        else .error .gridMismatch
      else .error .gridMismatch
    else .error .gridMismatch

/-- `axis_interpolator`: a single linear pass over the generator's
descriptors, filling the output buffer slice by slice. -/
def axis_interpolator {nt S : ℕ} {α β : Type*} (data : Fin (nt + 2) → α × Fin S × β → K)
    (generator : List (Desc K S)) (output_values : Fin (nt + 2) → K)
    (output_data : Fin (nt + 2) → α × Fin S × β → K) (ia : InterpArg K (nt + 2)) :
    Except Err (Fin (nt + 2) → α × Fin S × β → K) :=
  generator.foldlM (fun buf d => stepDesc data output_values ia buf d) output_data

/-- The external volume-series container (`FmriImageList`): per-volume data,
per-volume coordinate mappings, volume start times and per-slice offsets. -/
structure FmriSeries (K : Type*) (T S : ℕ) (α β γ : Type*) where
  data : Fin T → α × Fin S × β → K
  coordmaps : Fin T → γ
  volume_start_times : Fin T → K
  slice_times : Fin S → K

/-- The coordinate-mapping equality test computed by `slice_time`:
`filter(lambda x: not x, [i.coordmap == image_list[0].coordmap for i in
image_list]) == []`. -/
def coordmap_test {T S : ℕ} {α β γ : Type*} [DecidableEq γ]
    (s : FmriSeries K (T + 2) S α β γ) : Bool :=
  decide (∀ i, s.coordmaps i = s.coordmaps 0)

/-- `slice_time(image_list, interpolator)`: the top-level corrector.  Note
that the source computes the coordinate-mapping test into the variable
`test` (and prints the mismatch flags) but never acts on it; no error is
raised on a mismatch.  The output series reuses (copies of) the per-volume
coordinate mappings, keeps `volume_start_times`, and resets `slice_times`
to `np.zeros(image_list[0].shape[image_list.slice_axis])`. -/
def slice_time {nt S : ℕ} {α β γ : Type*} [DecidableEq γ]
    (image_list : FmriSeries K (nt + 2) S α β γ) (ia : InterpArg K (nt + 2)) :
    Except Err (FmriSeries K (nt + 2) S α β γ) :=
  let test := coordmap_test image_list
  let generator := slice_generator image_list.volume_start_times image_list.slice_times
  let output_times := image_list.volume_start_times
  (axis_interpolator image_list.data generator output_times (fun _ _ => 0) ia).map
    (fun output_data =>
      ⟨output_data, fun i => image_list.coordmaps i,
        image_list.volume_start_times, fun _ => 0⟩)

/-! ## Claims -/

/-- C7: for every `input_times` and `samples` array, if the interpolator
built by `detrend(interpolator)` finishes its build step — the wrapped
build returns instead of raising, so `data += trends` runs — then the
caller's samples array holds exactly its original values again: the
in-place subtraction of the fitted linear trend is fully undone (exactly,
in field arithmetic; machine rounding is abstracted away by the
embedding). -/
theorem detrend_restores_samples {idx : Type*} (interpolator : NdInterp K idx)
    (n : ℕ) (input_times : Fin n → K) (data : Fin n → idx → K)
    (h : (detrend interpolator n input_times data).1.isOk = true) :
    (detrend interpolator n input_times data).2 = data := by
  simp only [detrend] at h ⊢
  rcases hX : interpolator n input_times (fun mm v => data mm v -
      (input_times mm * (polyfit1 input_times data).1 v +
        (polyfit1 input_times data).2 v)) with e | ev
  · rw [hX] at h
    simp [Except.isOk, Except.toBool] at h
  · funext mm v
    simp

/-- Witness for C7: a wrapped interpolator whose build succeeds, on a
concrete one-sample array over `ℚ`; the array is restored. -/
theorem detrend_restores_samples_witness :
    (detrend (K := ℚ)
        (fun _ _ _ => .ok (fun _ _ => .ok (fun _ _ => 0))) 1
        (fun _ => 0) (fun _ (_ : Unit) => 3)).1.isOk = true ∧
    (detrend (K := ℚ)
        (fun _ _ _ => .ok (fun _ _ => .ok (fun _ _ => 0))) 1
        (fun _ => 0) (fun _ (_ : Unit) => 3)).2 = (fun _ (_ : Unit) => 3) :=
  ⟨rfl, detrend_restores_samples
    (fun _ _ _ => .ok (fun _ _ => .ok (fun _ _ => 0))) 1
    (fun _ => 0) (fun _ (_ : Unit) => 3) rfl⟩

/-- C8: the `j`-th descriptor yielded by `slice_generator` has input time
grid `volume_start_times + slice_times[j]` (elementwise) and selectors that
select exactly slice-axis index `j` — with every other spatial axis taken in
full, as the `selMem` denotation states — and the generator yields exactly
one descriptor per slice index (`S` in total, the `j`-th one for index `j`). -/
theorem slice_generator_spec {T S : ℕ} {α β : Type*} (vst : Fin T → K)
    (st : Fin S → K) (j : ℕ) (hj : j < S)
    (hlen : j < (slice_generator vst st).length) :
    (slice_generator vst st).length = S ∧
    (slice_generator vst st).get ⟨j, hlen⟩ =
      ⟨T, fun n => vst n + st ⟨j, hj⟩, ⟨j, hj⟩, ⟨j, hj⟩⟩ ∧
    (∀ (a : α) (s2 : Fin S) (b : β), selMem ⟨j, hj⟩ (a, s2, b) ↔ s2 = ⟨j, hj⟩) := by
  refine ⟨by simp [slice_generator], ?_, ?_⟩
  · rw [List.get_eq_getElem]
    simp only [slice_generator, List.getElem_map, List.getElem_finRange]
    rfl
  · intro a s2 b
    rw [selMem]

/-- Witness for C8 at `S = 2`, `j = 1`, over `ℚ`. -/
theorem slice_generator_spec_witness :
    (1 < 2 ∧
      1 < (slice_generator (fun n : Fin 2 => (n.val : ℚ)) (fun i : Fin 2 => (i.val : ℚ))).length) ∧
    ((slice_generator (fun n : Fin 2 => (n.val : ℚ)) (fun i : Fin 2 => (i.val : ℚ))).length = 2 ∧
      (slice_generator (fun n : Fin 2 => (n.val : ℚ)) (fun i : Fin 2 => (i.val : ℚ))).get
          ⟨1, by decide⟩ =
        ⟨2, fun n => (n.val : ℚ) + ((⟨1, by norm_num⟩ : Fin 2).val : ℚ),
          ⟨1, by norm_num⟩, ⟨1, by norm_num⟩⟩ ∧
      (∀ (a : Unit) (s2 : Fin 2) (b : Unit),
        selMem ⟨1, by norm_num⟩ (a, s2, b) ↔ s2 = ⟨1, by norm_num⟩)) :=
  ⟨⟨by norm_num, by decide⟩,
    slice_generator_spec (fun n : Fin 2 => (n.val : ℚ)) (fun i : Fin 2 => (i.val : ℚ))
      1 (by norm_num) (by decide)⟩

/-- A successful `sinc_interp` build hands back exactly the evaluator
closure `sinc_evalF`. -/
theorem sinc_interp_ok {m : ℕ} {idx : Type*} (sinck : K → K)
    (window : Option (K → K)) (t : Fin (m + 2) → K) (x : Fin (m + 2) → idx → K)
    (f : (p : ℕ) → (Fin p → K) → Except Err (Fin p → idx → K))
    (hf : sinc_interp sinck window t x = .ok f) :
    f = sinc_evalF sinck window t x := by
  rw [sinc_interp] at hf
  split_ifs at hf with h
  exact (Except.ok.inj hf).symm

/-- C5: an evaluator built by `sinc_interp` on times `t` with spacing
`tr = t[1]-t[0]` raises `RangeError` at `tnew` exactly when some entry of
`tnew` lies outside `[min(t)-tr, max(t)+tr]`; inside that interval it
returns the weighted sinc sum over the samples. -/
theorem sinc_interp_range_check {m : ℕ} {idx : Type*} (sinck : K → K)
    (window : Option (K → K)) (t : Fin (m + 2) → K) (x : Fin (m + 2) → idx → K)
    (f : (p : ℕ) → (Fin p → K) → Except Err (Fin p → idx → K))
    (hf : sinc_interp sinck window t x = .ok f) (p : ℕ) (tnew : Fin p → K) :
    (f p tnew = .error .rangeError ↔
      ∃ k, tnew k < vmin t - (t 1 - t 0) ∨ vmax t + (t 1 - t 0) < tnew k) ∧
    ((∀ k : Fin p, vmin t - (t 1 - t 0) ≤ tnew k ∧ tnew k ≤ vmax t + (t 1 - t 0)) →
      f p tnew = .ok (fun k v => ∑ mm : Fin (m + 2), kernelWeight sinck window
        ((tnew k - t 0) / (t 1 - t 0) - (mm.val : K)) * x mm v)) := by
  rw [sinc_interp_ok sinck window t x f hf, sinc_evalF]
  split_ifs with h
  · constructor
    · constructor
      · intro he
        exact absurd he (by simp)
      · rintro ⟨k, hk⟩
        rcases h k with ⟨h1, h2⟩
        rcases hk with hlt | hgt
        · exact absurd h1 (not_le.mpr hlt)
        · exact absurd h2 (not_le.mpr hgt)
    · intro _
      rfl
  · refine ⟨⟨fun _ => ?_, fun _ => rfl⟩, fun hall => absurd hall h⟩
    obtain ⟨k, hk⟩ := not_forall.mp h
    rcases not_and_or.mp hk with h1 | h2
    · exact ⟨k, Or.inl (not_le.mp h1)⟩
    · exact ⟨k, Or.inr (not_le.mp h2)⟩

/-- Witness for C5 over `ℚ` (identity kernel, no window, `t = (0,1)`,
`tnew = (5)`, which is beyond `max(t)+tr = 2`). -/
theorem sinc_interp_range_check_witness :
    (sinc_interp (fun d : ℚ => d) none (![0, 1] : Fin 2 → ℚ)
        (fun (_ : Fin 2) (_ : Unit) => (0 : ℚ)) =
      .ok (sinc_evalF (fun d : ℚ => d) none (![0, 1] : Fin 2 → ℚ)
        (fun (_ : Fin 2) (_ : Unit) => (0 : ℚ)))) ∧
    ((sinc_evalF (fun d : ℚ => d) none (![0, 1] : Fin 2 → ℚ)
          (fun (_ : Fin 2) (_ : Unit) => (0 : ℚ)) 1 (fun _ => 5) =
        .error .rangeError ↔
      ∃ k : Fin 1, (fun _ : Fin 1 => (5 : ℚ)) k < vmin (![0, 1] : Fin 2 → ℚ) -
          ((![0, 1] : Fin 2 → ℚ) 1 - (![0, 1] : Fin 2 → ℚ) 0) ∨
        vmax (![0, 1] : Fin 2 → ℚ) +
          ((![0, 1] : Fin 2 → ℚ) 1 - (![0, 1] : Fin 2 → ℚ) 0) < (fun _ : Fin 1 => (5 : ℚ)) k) ∧
    ((∀ k : Fin 1, vmin (![0, 1] : Fin 2 → ℚ) -
          ((![0, 1] : Fin 2 → ℚ) 1 - (![0, 1] : Fin 2 → ℚ) 0) ≤ (fun _ : Fin 1 => (5 : ℚ)) k ∧
        (fun _ : Fin 1 => (5 : ℚ)) k ≤ vmax (![0, 1] : Fin 2 → ℚ) +
          ((![0, 1] : Fin 2 → ℚ) 1 - (![0, 1] : Fin 2 → ℚ) 0)) →
      sinc_evalF (fun d : ℚ => d) none (![0, 1] : Fin 2 → ℚ)
          (fun (_ : Fin 2) (_ : Unit) => (0 : ℚ)) 1 (fun _ => 5) =
        .ok (fun k v => ∑ mm : Fin 2, kernelWeight (fun d : ℚ => d) none
          (((fun _ : Fin 1 => (5 : ℚ)) k - (![0, 1] : Fin 2 → ℚ) 0) /
              ((![0, 1] : Fin 2 → ℚ) 1 - (![0, 1] : Fin 2 → ℚ) 0) -
            (mm.val : ℚ)) * (fun (_ : Fin 2) (_ : Unit) => (0 : ℚ)) mm v))) := by
  have hf : sinc_interp (fun d : ℚ => d) none (![0, 1] : Fin 2 → ℚ)
      (fun (_ : Fin 2) (_ : Unit) => (0 : ℚ)) =
      .ok (sinc_evalF (fun d : ℚ => d) none (![0, 1] : Fin 2 → ℚ)
        (fun (_ : Fin 2) (_ : Unit) => (0 : ℚ))) := by
    rw [sinc_interp, if_pos ?_]
    intro i
    fin_cases i
    norm_num [diffV, atol, rtol, Fin.mk_zero, Fin.mk_one]
  exact ⟨hf, sinc_interp_range_check (fun d : ℚ => d) none _ _ _ hf 1 (fun _ => 5)⟩

/-- The sinc kernel at an integer offset of naturals is the Kronecker
delta. -/
theorem realSinc_nat_sub (a b : ℕ) :
    realSinc ((a : ℝ) - (b : ℝ)) = if a = b then 1 else 0 := by
  by_cases hab : a = b
  · simp [hab, realSinc]
  · have hne : (a : ℝ) - (b : ℝ) ≠ 0 := by
      rw [sub_ne_zero]
      exact_mod_cast hab
    rw [realSinc, if_neg hne, if_neg hab]
    have hz : (a : ℝ) - (b : ℝ) = (((a : ℤ) - (b : ℤ) : ℤ) : ℝ) := by push_cast; ring
    rw [hz, mul_comm Real.pi, Real.sin_int_mul_pi]
    simp

/-- On a uniformly spaced increasing grid, the (unwindowed) sinc evaluator
at the observation times reproduces the observed samples exactly: the
normalized offsets are integers, where the sinc kernel is the Kronecker
delta. -/
theorem sinc_evalF_node {m : ℕ} {idx : Type*} (t : Fin (m + 2) → ℝ)
    (x : Fin (m + 2) → idx → ℝ) (t0 tr : ℝ) (htr : 0 < tr)
    (ht : ∀ k : Fin (m + 2), t k = t0 + (k.val : ℝ) * tr) :
    sinc_evalF realSinc none t x (m + 2) t = .ok x := by
  have htr10 : t 1 - t 0 = tr := by
    rw [ht 1, ht 0]
    simp only [Fin.val_one, Fin.val_zero, Nat.cast_one, Nat.cast_zero]
    ring
  have hcond : ∀ k : Fin (m + 2),
      vmin t - (t 1 - t 0) ≤ t k ∧ t k ≤ vmax t + (t 1 - t 0) := by
    intro k
    have h1 : vmin t ≤ t k := Finset.inf'_le _ (Finset.mem_univ k)
    have h2 : t k ≤ vmax t := Finset.le_sup' _ (Finset.mem_univ k)
    rw [htr10]
    constructor <;> linarith
  rw [sinc_evalF, if_pos hcond]
  congr 1
  funext k v
  have hfrac : (t k - t 0) / (t 1 - t 0) = (k.val : ℝ) := by
    rw [htr10, ht k, ht 0]
    simp only [Fin.val_zero, Nat.cast_zero, zero_mul, add_zero]
    field_simp
  rw [hfrac]
  have hterm : ∀ mm : Fin (m + 2), kernelWeight realSinc none
      ((k.val : ℝ) - (mm.val : ℝ)) = if mm = k then 1 else 0 := by
    intro mm
    have hkw : kernelWeight realSinc none ((k.val : ℝ) - (mm.val : ℝ)) =
        realSinc ((k.val : ℝ) - (mm.val : ℝ)) := rfl
    rw [hkw, realSinc_nat_sub]
    by_cases hmk : mm = k
    · simp [hmk]
    · have hvk : k.val ≠ mm.val := fun hh => hmk (Fin.ext hh.symm)
      rw [if_neg hvk, if_neg hmk]
  calc (∑ mm : Fin (m + 2), kernelWeight realSinc none
          ((k.val : ℝ) - (mm.val : ℝ)) * x mm v)
      = ∑ mm : Fin (m + 2), (if mm = k then 1 else 0) * x mm v := by
        exact Finset.sum_congr rfl (fun mm _ => by rw [hterm mm])
    _ = x k v := by
        simp [ite_mul, Finset.sum_ite_eq']

/-- C10: on a uniformly spaced increasing time grid `t`, the evaluator
returned by `sinc_interp` with no window, applied at the input times
themselves, returns exactly the observed samples (in exact real
arithmetic). -/
theorem sinc_interp_reproduces_samples {m : ℕ} {idx : Type*}
    (t : Fin (m + 2) → ℝ) (x : Fin (m + 2) → idx → ℝ) (t0 tr : ℝ)
    (htr : 0 < tr) (ht : ∀ k : Fin (m + 2), t k = t0 + (k.val : ℝ) * tr)
    (f : (p : ℕ) → (Fin p → ℝ) → Except Err (Fin p → idx → ℝ))
    (hf : sinc_interp realSinc none t x = .ok f) :
    f (m + 2) t = .ok x := by
  rw [sinc_interp_ok realSinc none t x f hf]
  exact sinc_evalF_node t x t0 tr htr ht

/-- Witness for C10 at `t = (0, 1)`, `x = (3, 7)`. -/
theorem sinc_interp_reproduces_samples_witness :
    sinc_evalF realSinc none (![0, 1] : Fin 2 → ℝ)
      (fun (i : Fin 2) (_ : Unit) => (![3, 7] : Fin 2 → ℝ) i) 2 (![0, 1] : Fin 2 → ℝ) =
    .ok (fun (i : Fin 2) (_ : Unit) => (![3, 7] : Fin 2 → ℝ) i) := by
  have hf : sinc_interp realSinc none (![0, 1] : Fin 2 → ℝ)
      (fun (i : Fin 2) (_ : Unit) => (![3, 7] : Fin 2 → ℝ) i) =
      .ok (sinc_evalF realSinc none (![0, 1] : Fin 2 → ℝ)
        (fun (i : Fin 2) (_ : Unit) => (![3, 7] : Fin 2 → ℝ) i)) := by
    rw [sinc_interp, if_pos ?_]
    intro i
    fin_cases i
    norm_num [diffV, atol, rtol, Fin.mk_zero, Fin.mk_one]
  exact sinc_interp_reproduces_samples (![0, 1] : Fin 2 → ℝ)
    (fun (i : Fin 2) (_ : Unit) => (![3, 7] : Fin 2 → ℝ) i) 0 1 one_pos
    (by
      intro k
      fin_cases k <;> norm_num)
    (sinc_evalF realSinc none (![0, 1] : Fin 2 → ℝ)
      (fun (i : Fin 2) (_ : Unit) => (![3, 7] : Fin 2 → ℝ) i)) hf

/-- Every failing validation in the fast-path branch of the per-descriptor
step yields a `GridMismatchError`. -/
theorem stepDesc_fastSinc_err_kind {nt S : ℕ} {α β : Type*}
    (data : Fin (nt + 2) → α × Fin S × β → K) (ov : Fin (nt + 2) → K)
    (fsf : K → (Fin (nt + 2) → K) → Fin (nt + 2) → K)
    (buf : Fin (nt + 2) → α × Fin S × β → K) (d : Desc K S) (e : Err)
    (he : stepDesc data ov (.fastSinc fsf) buf d = .error e) :
    e = .gridMismatch := by
  simp only [stepDesc] at he
  split_ifs at he
  all_goals exact (Except.error.inj he).symm

/-- A descriptor whose input grid is not uniformly spaced within tolerance
(or whose length mismatches), or a non-uniform output grid, makes the
fast-path step fail with `GridMismatchError`. -/
theorem stepDesc_fastSinc_bad {nt S : ℕ} {α β : Type*}
    (data : Fin (nt + 2) → α × Fin S × β → K) (ov : Fin (nt + 2) → K)
    (fsf : K → (Fin (nt + 2) → K) → Fin (nt + 2) → K)
    (buf : Fin (nt + 2) → α × Fin S × β → K) (d : Desc K S)
    (hbad : ¬ uniformWithinTol ov ∨ ¬ uniformWithinTol d.times ∨ d.nin ≠ nt + 2) :
    stepDesc data ov (.fastSinc fsf) buf d = .error .gridMismatch := by
  simp only [stepDesc]
  split_ifs with h1 h2 h3
  · rcases hbad with hb | hb | hb
    · exact absurd ⟨_, h1⟩ hb
    · exact absurd ⟨_, h2⟩ hb
    · exact absurd h3 hb
  all_goals rfl

/-- If any descriptor of the generator exhibits a non-uniform grid or a
length mismatch, the whole fast-path pass fails with `GridMismatchError`. -/
theorem axis_interpolator_fastSinc_bad {nt S : ℕ} {α β : Type*}
    (data : Fin (nt + 2) → α × Fin S × β → K) (ov : Fin (nt + 2) → K)
    (fsf : K → (Fin (nt + 2) → K) → Fin (nt + 2) → K)
    (gen : List (Desc K S)) (buf0 : Fin (nt + 2) → α × Fin S × β → K)
    (h : ∃ d ∈ gen, ¬ uniformWithinTol ov ∨ ¬ uniformWithinTol d.times ∨ d.nin ≠ nt + 2) :
    axis_interpolator data gen ov buf0 (.fastSinc fsf) = .error .gridMismatch := by
  induction gen generalizing buf0 with
  | nil => simp at h
  | cons d rest ih =>
    simp only [axis_interpolator, List.foldlM_cons]
    by_cases hd : ¬ uniformWithinTol ov ∨ ¬ uniformWithinTol d.times ∨ d.nin ≠ nt + 2
    · rw [stepDesc_fastSinc_bad data ov fsf buf0 d hd]
      rfl
    · have hrest : ∃ d2 ∈ rest,
          ¬ uniformWithinTol ov ∨ ¬ uniformWithinTol d2.times ∨ d2.nin ≠ nt + 2 := by
        rcases h with ⟨d2, hmem, hbad2⟩
        rcases List.mem_cons.mp hmem with rfl | hm
        · exact absurd hbad2 hd
        · exact ⟨d2, hm, hbad2⟩
      cases hstep : stepDesc data ov (.fastSinc fsf) buf0 d with
      | error e =>
        have := stepDesc_fastSinc_err_kind data ov fsf buf0 d e hstep
        subst this
        rfl
      | ok buf1 =>
        exact ih buf1 hrest

/-- C4: a time grid that is not uniformly spaced within the floating-point
tolerance (no constant spacing is `allclose` to its differences) makes the
windowed sinc interpolator fail with `GridSpacingError` at build time; and
the fast Fourier resampler path of `axis_interpolator` fails with
`GridMismatchError` — before the resampler function is ever invoked, for
every resampler function `fsf` — whenever its shared output grid or some
descriptor's input grid is non-uniform, or the grid lengths mismatch. -/
theorem grid_spacing_validation :
    (∀ (m : ℕ) (idx : Type) (sinck : K → K) (window : Option (K → K))
        (t : Fin (m + 2) → K) (x : Fin (m + 2) → idx → K),
      ¬ uniformWithinTol t → sinc_interp sinck window t x = .error .gridSpacing) ∧
    (∀ (nt S : ℕ) (α β : Type) (data : Fin (nt + 2) → α × Fin S × β → K)
        (gen : List (Desc K S)) (ov : Fin (nt + 2) → K)
        (buf0 : Fin (nt + 2) → α × Fin S × β → K)
        (fsf : K → (Fin (nt + 2) → K) → Fin (nt + 2) → K),
      (∃ d ∈ gen, ¬ uniformWithinTol ov ∨ ¬ uniformWithinTol d.times ∨ d.nin ≠ nt + 2) →
      axis_interpolator data gen ov buf0 (.fastSinc fsf) = .error .gridMismatch) := by
  constructor
  · intro m idx sinck window t x hu
    rw [sinc_interp, if_neg (fun hcl => hu ⟨t 1 - t 0, hcl⟩)]
  · intro nt S α β data gen ov buf0 fsf h
    exact axis_interpolator_fastSinc_bad data ov fsf gen buf0 h

/-- The concrete grid `(0, 1, 3)` is not uniformly spaced within the
`np.allclose` tolerance: no constant spacing fits both differences 1 and 2. -/
theorem grid013_not_uniform : ¬ uniformWithinTol (![0, 1, 3] : Fin 3 → ℚ) := by
  rintro ⟨c, hc⟩
  have h0 := hc 0
  have h1 := hc 1
  norm_num [diffV, allcloseC, atol, rtol, Fin.mk_zero, Fin.mk_one] at h0 h1
  rcases le_or_lt 0 c with hcp | hcn
  · rw [abs_of_nonneg hcp] at h0 h1
    rw [abs_le] at h0 h1
    linarith [h0.1, h0.2, h1.1, h1.2]
  · rw [abs_of_neg hcn] at h0 h1
    rw [abs_le] at h0 h1
    linarith [h0.1, h0.2, h1.1, h1.2]

/-- Witness for C4 over `ℚ`: the non-uniform grid `(0, 1, 3)` is rejected
by `sinc_interp`, and a descriptor carrying it (which also has mismatched
length 3 against 2 output points) makes the fast path fail. -/
theorem grid_spacing_validation_witness :
    sinc_interp (fun d : ℚ => d) none (![0, 1, 3] : Fin 3 → ℚ)
      (fun (_ : Fin 3) (_ : Unit) => (0 : ℚ)) = .error .gridSpacing ∧
    axis_interpolator (fun (_ : Fin 2) (_ : Unit × Fin 1 × Unit) => (0 : ℚ))
      [⟨3, (![0, 1, 3] : Fin 3 → ℚ), 0, 0⟩] (![0, 1] : Fin 2 → ℚ)
      (fun _ _ => 0) (.fastSinc (fun _ col => col)) = .error .gridMismatch :=
  ⟨grid_spacing_validation.1 1 Unit (fun d : ℚ => d) none (![0, 1, 3] : Fin 3 → ℚ)
      (fun _ _ => 0) grid013_not_uniform,
    grid_spacing_validation.2 0 1 Unit Unit _ _ _ _ _
      ⟨⟨3, (![0, 1, 3] : Fin 3 → ℚ), 0, 0⟩, by simp,
        Or.inr (Or.inl grid013_not_uniform)⟩⟩

/-- C6: for an interpolator that is linear in its sample values — acting as
`G` at the fixed grids, additive and homogeneous — `make_filter` produces
the matrix whose column `i` is the interpolator's output for the canonical
basis vector `e_i`; applying that matrix is additive in the data
(`apply(x1+x2) = apply(x1)+apply(x2)`), and the matrix reproduces the
interpolator's action on every sample vector. -/
theorem make_filter_linear {nin nout : ℕ} (interpolator : Interp K)
    (input_times : Fin nin → K) (output_times : Fin nout → K)
    (G : (Fin nin → K) → Fin nout → K)
    (hG : ∀ y, (interpolator nin input_times y).bind (fun ev => ev nout output_times) =
      .ok (G y))
    (hadd : ∀ y z, G (y + z) = G y + G z)
    (hsmul : ∀ (c : K) (y : Fin nin → K), G (c • y) = c • G y) :
    make_filter interpolator input_times output_times =
      .ok (Matrix.of fun n i => G (basisVec i) n) ∧
    (∀ (idx : Type) (x1 x2 : Fin nin → idx → K),
      applyMat (Matrix.of fun n i => G (basisVec i) n) (fun mm v => x1 mm v + x2 mm v) =
        fun n v => applyMat (Matrix.of fun n i => G (basisVec i) n) x1 n v +
          applyMat (Matrix.of fun n i => G (basisVec i) n) x2 n v) ∧
    (∀ (y : Fin nin → K) (n : Fin nout),
      ∑ i, G (basisVec i) n * y i = G y n) := by
  refine ⟨?_, ?_, ?_⟩
  · have h1 : finCollect (fun i => do
        let ev ← interpolator nin input_times (basisVec i)
        ev nout output_times) = .ok (fun i => G (basisVec i)) :=
      finCollect_ok _ _ (fun i => hG (basisVec i))
    rw [make_filter, h1]
    rfl
  · intro idx x1 x2
    funext n v
    simp only [applyMat, mul_add]
    rw [Finset.sum_add_distrib]
  · intro y n
    have hy : y = ∑ i, y i • basisVec i := by
      funext mm
      rw [Finset.sum_apply]
      simp only [Pi.smul_apply, basisVec, smul_eq_mul, mul_ite, mul_one, mul_zero]
      rw [Finset.sum_ite_eq Finset.univ mm (fun i => y i)]
      simp
    conv_rhs => rw [hy]
    have hmap : G (∑ i, y i • basisVec i) = ∑ i, y i • G (basisVec i) := by
      calc G (∑ i, y i • basisVec i) = ∑ i, G (y i • basisVec i) :=
            map_sum (AddMonoidHom.mk' G hadd) (fun i => y i • basisVec i) Finset.univ
        _ = ∑ i, y i • G (basisVec i) :=
            Finset.sum_congr rfl (fun i _ => hsmul (y i) (basisVec i))
    rw [hmap, Finset.sum_apply]
    exact Finset.sum_congr rfl (fun i _ => by simp [mul_comm])

/-- Witness for C6 over `ℚ`: the summing interpolator at `nin = nout = 1`. -/
theorem make_filter_linear_witness :
    (make_filter (fun n _ y => .ok (fun p _ => .ok (fun _ => ∑ i, y i)))
        (fun _ : Fin 1 => (0 : ℚ)) (fun _ : Fin 1 => (0 : ℚ)) =
      .ok (Matrix.of fun n i => (fun y : Fin 1 → ℚ => fun _ : Fin 1 => ∑ i, y i)
        (basisVec i) n)) ∧
    (∀ (idx : Type) (x1 x2 : Fin 1 → idx → ℚ),
      applyMat (Matrix.of fun n i => (fun y : Fin 1 → ℚ => fun _ : Fin 1 => ∑ i, y i)
          (basisVec i) n) (fun mm v => x1 mm v + x2 mm v) =
        fun n v => applyMat (Matrix.of fun n i =>
            (fun y : Fin 1 → ℚ => fun _ : Fin 1 => ∑ i, y i) (basisVec i) n) x1 n v +
          applyMat (Matrix.of fun n i =>
            (fun y : Fin 1 → ℚ => fun _ : Fin 1 => ∑ i, y i) (basisVec i) n) x2 n v) ∧
    (∀ (y : Fin 1 → ℚ) (n : Fin 1),
      ∑ i, (fun y : Fin 1 → ℚ => fun _ : Fin 1 => ∑ i, y i) (basisVec i) n * y i =
        (fun y : Fin 1 → ℚ => fun _ : Fin 1 => ∑ i, y i) y n) :=
  make_filter_linear (fun n _ y => .ok (fun p _ => .ok (fun _ => ∑ i, y i)))
    (fun _ : Fin 1 => (0 : ℚ)) (fun _ : Fin 1 => (0 : ℚ))
    (fun y _ => ∑ i, y i)
    (fun y => rfl)
    (fun y z => by
      funext k
      simp [Finset.sum_add_distrib])
    (fun c y => by
      funext k
      simp [Finset.mul_sum])

/-- Applying a filter to data whose leading axis matches its input length
succeeds. -/
theorem apply_filter_ok {p T : ℕ} {idx : Type*} (A : Matrix (Fin p) (Fin T) K)
    (x : Fin T → idx → K) : apply_filter A x = .ok (applyMat A x) :=
  dif_pos rfl

/-- The general-interpolator step on a generator descriptor: build the
filter, apply it, write the slice. -/
theorem stepDesc_general_ok {nt S : ℕ} {α β : Type*}
    (data : Fin (nt + 2) → α × Fin S × β → K) (ov : Fin (nt + 2) → K)
    (ip : Interp K) (buf : Fin (nt + 2) → α × Fin S × β → K)
    (tms : Fin (nt + 2) → K) (jin jout : Fin S)
    (A : Matrix (Fin (nt + 2)) (Fin (nt + 2)) K)
    (hA : make_filter ip tms ov = .ok A) :
    stepDesc data ov (.general ip) buf ⟨nt + 2, tms, jin, jout⟩ =
      .ok (writeSlice buf jout (fun n p => applyMat A data n (p.1, jin, p.2.2))) := by
  simp only [stepDesc]
  rw [hA]
  show (apply_filter A data).bind (fun y =>
    .ok (writeSlice buf jout (fun n p => y n (p.1, jin, p.2.2)))) = _
  rw [apply_filter_ok]
  rfl

/-- Folding the general step over descriptors for a list of slice indices
fills exactly those slices with the matrix-filtered data. -/
theorem axis_general_js {nt S : ℕ} {α β : Type*}
    (data : Fin (nt + 2) → α × Fin S × β → K) (ov : Fin (nt + 2) → K)
    (ip : Interp K) (vst : Fin (nt + 2) → K) (st : Fin S → K)
    (A : Fin S → Matrix (Fin (nt + 2)) (Fin (nt + 2)) K)
    (hA : ∀ j, make_filter ip (fun n => vst n + st j) ov = .ok (A j)) :
    ∀ (js : List (Fin S)) (buf : Fin (nt + 2) → α × Fin S × β → K),
      (js.map (fun j => (⟨nt + 2, fun n => vst n + st j, j, j⟩ : Desc K S))).foldlM
        (fun buf d => stepDesc data ov (.general ip) buf d) buf =
      .ok (fun n p => if p.2.1 ∈ js then applyMat (A p.2.1) data n p else buf n p) := by
  intro js
  induction js with
  | nil =>
    intro buf
    simp only [List.map_nil, List.foldlM_nil]
    exact congrArg Except.ok (by funext n p; simp)
  | cons j js ih =>
    intro buf
    simp only [List.map_cons, List.foldlM_cons]
    rw [stepDesc_general_ok data ov ip buf _ j j (A j) (hA j)]
    show (js.map (fun j => (⟨nt + 2, fun n => vst n + st j, j, j⟩ : Desc K S))).foldlM
        (fun buf d => stepDesc data ov (.general ip) buf d)
        (writeSlice buf j (fun n p => applyMat (A j) data n (p.1, j, p.2.2))) = _
    rw [ih (writeSlice buf j (fun n p => applyMat (A j) data n (p.1, j, p.2.2)))]
    refine congrArg Except.ok ?_
    funext n p
    by_cases hmem : p.2.1 ∈ js
    · simp [hmem]
    · by_cases hj : p.2.1 = j
      · subst hj
        simp [hmem, writeSlice, selMem]
      · simp [hmem, hj, writeSlice, selMem]

/-- When every per-slice filter builds successfully, `axis_interpolator`
over `slice_generator` computes, at every position, the matrix filter of
that position's slice applied to the data. -/
theorem axis_interpolator_general {nt S : ℕ} {α β : Type*}
    (data : Fin (nt + 2) → α × Fin S × β → K) (ov : Fin (nt + 2) → K)
    (ip : Interp K) (vst : Fin (nt + 2) → K) (st : Fin S → K)
    (buf0 : Fin (nt + 2) → α × Fin S × β → K)
    (A : Fin S → Matrix (Fin (nt + 2)) (Fin (nt + 2)) K)
    (hA : ∀ j, make_filter ip (fun n => vst n + st j) ov = .ok (A j)) :
    axis_interpolator data (slice_generator vst st) ov buf0 (.general ip) =
      .ok (fun n p => applyMat (A p.2.1) data n p) := by
  have h := axis_general_js data ov ip vst st A hA (List.finRange S) buf0
  rw [axis_interpolator, slice_generator, h]
  exact congrArg Except.ok (by funext n p; simp [List.mem_finRange])

/-- Applying the identity filter returns the data unchanged. -/
theorem applyMat_one {T : ℕ} {idx : Type*} (x : Fin T → idx → K) :
    applyMat (1 : Matrix (Fin T) (Fin T) K) x = x := by
  funext n v
  simp [applyMat, Matrix.one_apply, ite_mul, Finset.sum_ite_eq]

/-- On a uniformly spaced increasing grid, probing the linear interpolator
with every basis vector and evaluating back at the grid itself yields the
identity matrix. -/
theorem make_filter_interp1d_id {nt : ℕ} (vst : Fin (nt + 2) → K) (v0 tr : K)
    (htr : 0 < tr) (hvst : ∀ k : Fin (nt + 2), vst k = v0 + (k.val : K) * tr) :
    make_filter interp1d vst vst = .ok (1 : Matrix (Fin (nt + 2)) (Fin (nt + 2)) K) := by
  have hmono : StrictMono vst := by
    intro a b hab
    rw [hvst a, hvst b]
    have hv : (a.val : K) < (b.val : K) := by exact_mod_cast Fin.lt_def.mp hab
    have := mul_lt_mul_of_pos_right hv htr
    linarith
  have hcond : ∀ k : Fin (nt + 2), vst 0 ≤ vst k ∧ vst k ≤ vst ⟨nt + 1, by omega⟩ := by
    intro k
    refine ⟨hmono.monotone (Fin.zero_le k), hmono.monotone ?_⟩
    rw [Fin.le_def]
    exact Nat.lt_succ_iff.mp k.isLt
  have hf : ∀ i : Fin (nt + 2),
      (interp1d (K := K) (nt + 2) vst (basisVec i)).bind (fun ev => ev (nt + 2) vst) =
        .ok (fun k => basisVec i k) := by
    intro i
    have heval : (interp1d (K := K) (nt + 2) vst (basisVec i)).bind
        (fun ev => ev (nt + 2) vst) =
        (if ∀ k : Fin (nt + 2), vst 0 ≤ vst k ∧ vst k ≤ vst ⟨nt + 1, by omega⟩ then
          .ok (fun k => interp1dVal vst (basisVec i) (vst k))
        else .error .rangeError) := rfl
    rw [heval, if_pos hcond]
    exact congrArg Except.ok (funext fun k => interp1dVal_node vst (basisVec i) hmono k)
  have h1 : finCollect (fun i => do
      let ev ← interp1d (K := K) (nt + 2) vst (basisVec i)
      ev (nt + 2) vst) = .ok (fun i => fun k => basisVec i k) :=
    finCollect_ok _ _ hf
  rw [make_filter, h1]
  show Except.ok _ = _
  refine congrArg Except.ok ?_
  funext n i
  rw [Matrix.one_apply]
  rfl

/-- Consecutive differences of a uniformly spaced grid all equal the
spacing. -/
theorem diffV_of_uniform {m : ℕ} (t : Fin (m + 2) → K) (v0 tr : K)
    (ht : ∀ k : Fin (m + 2), t k = v0 + (k.val : K) * tr) (i : Fin (m + 2 - 1)) :
    diffV t i = tr := by
  simp only [diffV]
  rw [ht, ht]
  show v0 + ((i.val + 1 : ℕ) : K) * tr - (v0 + ((i.val : ℕ) : K) * tr) = tr
  push_cast
  ring

/-- A uniformly spaced grid passes the `np.allclose` spacing check against
its own first difference. -/
theorem allcloseC_of_uniform {m : ℕ} (t : Fin (m + 2) → K) (v0 tr : K)
    (ht : ∀ k : Fin (m + 2), t k = v0 + (k.val : K) * tr) :
    allcloseC (diffV t) (t 1 - t 0) := by
  have htr10 : t 1 - t 0 = tr := by
    rw [ht 1, ht 0]
    simp only [Fin.val_one, Fin.val_zero, Nat.cast_one, Nat.cast_zero]
    ring
  intro i
  rw [diffV_of_uniform t v0 tr ht i, htr10, sub_self, abs_zero]
  have h1 : (0 : K) < atol := by rw [atol]; norm_num
  have h2 : (0 : K) ≤ rtol * |tr| := by
    apply mul_nonneg _ (abs_nonneg tr)
    rw [rtol]
    norm_num
  linarith

/-- On a uniformly spaced increasing grid, probing the windowed sinc
interpolator (through the 1-D contract) with every basis vector and
evaluating back at the grid itself yields the identity matrix. -/
theorem make_filter_sinc_id {nt : ℕ} (vst : Fin (nt + 2) → ℝ) (v0 tr : ℝ)
    (htr : 0 < tr) (hvst : ∀ k : Fin (nt + 2), vst k = v0 + (k.val : ℝ) * tr) :
    make_filter (sinc_interpContract realSinc none) vst vst =
      .ok (1 : Matrix (Fin (nt + 2)) (Fin (nt + 2)) ℝ) := by
  have hall := allcloseC_of_uniform vst v0 tr hvst
  have hfs : ∀ i : Fin (nt + 2),
      (sinc_interpContract realSinc none (nt + 2) vst (basisVec i)).bind
        (fun ev => ev (nt + 2) vst) = .ok (fun k => basisVec i k) := by
    intro i
    have hbuild : sinc_interp realSinc none vst (fun mm (_ : Unit) => basisVec i mm) =
        .ok (sinc_evalF realSinc none vst (fun mm (_ : Unit) => basisVec i mm)) := by
      rw [sinc_interp, if_pos hall]
    have hnode := sinc_evalF_node vst (fun mm (_ : Unit) => basisVec i mm) v0 tr htr hvst
    have hcontract : sinc_interpContract realSinc none (nt + 2) vst (basisVec i) =
        Except.ok (fun p tnew =>
          (sinc_evalF realSinc none vst (fun mm (_ : Unit) => basisVec i mm) p tnew).map
            (fun g k => g k ())) := by
      show (sinc_interp realSinc none vst (fun mm (_ : Unit) => basisVec i mm)).map _ = _
      rw [hbuild]
      rfl
    rw [hcontract]
    show (sinc_evalF realSinc none vst (fun mm (_ : Unit) => basisVec i mm)
        (nt + 2) vst).map (fun g k => g k ()) = _
    rw [hnode]
    rfl
  have h1 : finCollect (fun i => do
      let ev ← sinc_interpContract realSinc none (nt + 2) vst (basisVec i)
      ev (nt + 2) vst) = .ok (fun i => fun k => basisVec i k) :=
    finCollect_ok _ _ hfs
  rw [make_filter, h1]
  show Except.ok _ = _
  refine congrArg Except.ok ?_
  funext n i
  rw [Matrix.one_apply]
  rfl

/-- When every per-slice filter is the identity, `slice_time` returns the
input data unchanged, with copied coordinate maps, the original
`volume_start_times` and zeroed `slice_times`. -/
theorem slice_time_of_identity_filters {nt S : ℕ} {α β γ : Type*} [DecidableEq γ]
    (s : FmriSeries K (nt + 2) S α β γ) (ip : Interp K)
    (hA : ∀ j : Fin S, make_filter ip
      (fun n => s.volume_start_times n + s.slice_times j) s.volume_start_times =
      .ok (1 : Matrix (Fin (nt + 2)) (Fin (nt + 2)) K)) :
    slice_time s (.general ip) =
      .ok ⟨s.data, fun i => s.coordmaps i, s.volume_start_times, fun _ => 0⟩ := by
  simp only [slice_time]
  rw [axis_interpolator_general s.data s.volume_start_times ip s.volume_start_times
    s.slice_times (fun _ _ => 0) (fun _ => 1) hA]
  show Except.ok _ = _
  refine congrArg Except.ok ?_
  have hdata : (fun n p => applyMat (1 : Matrix (Fin (nt + 2)) (Fin (nt + 2)) K)
      s.data n p) = s.data := by
    funext n p
    exact congrFun (congrFun (applyMat_one s.data) n) p
  rw [hdata]

/-- C3: for a volume series whose `slice_times` are all zero (on a
uniformly spaced increasing time grid), `slice_time` returns the input data
exactly — both with the default linear interpolator and with the windowed
sinc interpolator. -/
theorem slice_time_identity_zero_offsets {nt S : ℕ} {α β γ : Type*} [DecidableEq γ]
    (s : FmriSeries ℝ (nt + 2) S α β γ) (v0 tr : ℝ) (htr : 0 < tr)
    (hvst : ∀ k : Fin (nt + 2), s.volume_start_times k = v0 + (k.val : ℝ) * tr)
    (hst : s.slice_times = fun _ => 0) :
    slice_time s (.general interp1d) =
      .ok ⟨s.data, fun i => s.coordmaps i, s.volume_start_times, fun _ => 0⟩ ∧
    slice_time s (.general (sinc_interpContract realSinc none)) =
      .ok ⟨s.data, fun i => s.coordmaps i, s.volume_start_times, fun _ => 0⟩ := by
  have htimes : ∀ j : Fin S,
      (fun n => s.volume_start_times n + s.slice_times j) = s.volume_start_times := by
    intro j
    funext n
    rw [hst]
    simp
  constructor
  · apply slice_time_of_identity_filters
    intro j
    rw [htimes j]
    exact make_filter_interp1d_id s.volume_start_times v0 tr htr hvst
  · apply slice_time_of_identity_filters
    intro j
    rw [htimes j]
    exact make_filter_sinc_id s.volume_start_times v0 tr htr hvst

/-- A concrete two-volume series over `ℝ` with zero slice offsets. -/
def identSeriesR : FmriSeries ℝ 2 1 Unit Unit ℕ :=
  ⟨fun n _ => (n.val : ℝ), fun _ => 0, fun k => (k.val : ℝ), fun _ => 0⟩

/-- Witness for C3 at a concrete two-volume series. -/
theorem slice_time_identity_zero_offsets_witness :
    ((0 : ℝ) < 1 ∧
      (∀ k : Fin 2, identSeriesR.volume_start_times k = 0 + (k.val : ℝ) * 1) ∧
      identSeriesR.slice_times = (fun _ => 0)) ∧
    (slice_time identSeriesR (.general interp1d) =
      .ok ⟨identSeriesR.data, fun i => identSeriesR.coordmaps i,
        identSeriesR.volume_start_times, fun _ => 0⟩ ∧
    slice_time identSeriesR (.general (sinc_interpContract realSinc none)) =
      .ok ⟨identSeriesR.data, fun i => identSeriesR.coordmaps i,
        identSeriesR.volume_start_times, fun _ => 0⟩) :=
  ⟨⟨one_pos, fun k => by simp [identSeriesR], rfl⟩,
    slice_time_identity_zero_offsets identSeriesR 0 1 one_pos
      (fun k => by simp [identSeriesR]) rfl⟩

/-- A concrete two-volume series over `ℚ` whose two volumes carry DIFFERENT
coordinate mappings (`0` and `1`), with zero slice offsets. -/
def mismatchSeries : FmriSeries ℚ 2 1 Unit Unit ℕ :=
  ⟨fun n _ => (n.val : ℚ), fun n => n.val, fun k => (k.val : ℚ), fun _ => 0⟩

/-- C1 (code divergence): on a series whose volumes do NOT share one
coordinate mapping, the coordinate test computed by `slice_time` is false,
yet `slice_time` raises nothing: it resamples and returns a complete output
series.  The check is computed into the dead variable `test` (with a
`TODO: fix equality check of coordmaps` comment) and never enforced — the
enforcing assert exists only in the older duplicated revision of the
module. -/
theorem slice_time_no_coordmap_enforcement :
    coordmap_test mismatchSeries = false ∧
    slice_time mismatchSeries (.general interp1d) =
      .ok ⟨mismatchSeries.data, fun i => mismatchSeries.coordmaps i,
        mismatchSeries.volume_start_times, fun _ => 0⟩ := by
  constructor
  · rfl
  · apply slice_time_of_identity_filters
    intro j
    have htimes : (fun n => mismatchSeries.volume_start_times n +
        mismatchSeries.slice_times j) = mismatchSeries.volume_start_times := by
      funext n
      simp [mismatchSeries]
    rw [htimes]
    exact make_filter_interp1d_id mismatchSeries.volume_start_times 0 1 one_pos
      (fun k => by simp [mismatchSeries])

/-- Extract the payload of a successful result (used to state metadata
properties of `slice_time`'s output). -/
def okOr {A : Type*} (x : Except Err A) (d : A) : A :=
  match x with
  | .ok a => a
  | .error _ => d

/-- C9: whenever `slice_time` returns a series, that series has
`slice_times` identically zero (one entry per slice-axis index, as the type
`Fin S → K` records) and the input's `volume_start_times` unchanged. -/
theorem slice_time_output_metadata {nt S : ℕ} {α β γ : Type*} [DecidableEq γ]
    (s : FmriSeries K (nt + 2) S α β γ) (ia : InterpArg K (nt + 2))
    (h : (slice_time s ia).isOk = true) :
    (okOr (slice_time s ia) s).slice_times = (fun _ => 0) ∧
    (okOr (slice_time s ia) s).volume_start_times = s.volume_start_times := by
  simp only [slice_time] at h ⊢
  cases hres : axis_interpolator s.data
      (slice_generator s.volume_start_times s.slice_times) s.volume_start_times
      (fun _ _ => 0) ia with
  | error e =>
    rw [hres] at h
    simp [Except.map, Except.isOk, Except.toBool] at h
  | ok od =>
    exact ⟨rfl, rfl⟩

/-- A concrete two-volume series over `ℚ` with matching coordinate maps. -/
def identSeriesQ : FmriSeries ℚ 2 1 Unit Unit ℕ :=
  ⟨fun n _ => (n.val : ℚ), fun _ => 0, fun k => (k.val : ℚ), fun _ => 0⟩

/-- Witness for C9: a concrete run of `slice_time` that succeeds, whose
output metadata is inspected through the theorem. -/
theorem slice_time_output_metadata_witness :
    (slice_time identSeriesQ (.general interp1d)).isOk = true ∧
    ((okOr (slice_time identSeriesQ (.general interp1d)) identSeriesQ).slice_times =
      (fun _ => 0) ∧
    (okOr (slice_time identSeriesQ (.general interp1d)) identSeriesQ).volume_start_times =
      identSeriesQ.volume_start_times) := by
  have hok : slice_time identSeriesQ (.general interp1d) =
      .ok ⟨identSeriesQ.data, fun i => identSeriesQ.coordmaps i,
        identSeriesQ.volume_start_times, fun _ => 0⟩ := by
    apply slice_time_of_identity_filters
    intro j
    have htimes : (fun n => identSeriesQ.volume_start_times n +
        identSeriesQ.slice_times j) = identSeriesQ.volume_start_times := by
      funext n
      simp [identSeriesQ]
    rw [htimes]
    exact make_filter_interp1d_id identSeriesQ.volume_start_times 0 1 one_pos
      (fun k => by simp [identSeriesQ])
  have h : (slice_time identSeriesQ (.general interp1d)).isOk = true := by
    rw [hok]
    rfl
  exact ⟨h, slice_time_output_metadata identSeriesQ (.general interp1d) h⟩

end SliceTime
